import Mathlib

/-!
Shallow embedding of the lasr message queue (package `lasr`, files
`lasr.go` and the sequencer file) and proofs about it.

Modelling conventions:
* Go byte slices are `List Nat` with each entry < 256.
* Go `error` results are `Option LasrError` (or `Option String` where the
  Go code builds an ad-hoc error with `fmt.Errorf`); `none` is Go's `nil`.
* Go panics are modelled by `Option`-returning functions that yield `none`
  exactly where the Go code panics.
* `uint64` values are `Nat`; where truncation to 64 bits matters the
  definitions take the value modulo `2 ^ 64` byte by byte, exactly as Go's
  `byte(v >> s)` conversions do.
-/

namespace Lasr

/-- The package-level error sentinels of `lasr.go`, plus `txError`, which
stands for an arbitrary error returned by a bolt store transaction. -/
inductive LasrError
  | emptyQ
  | errAckNack
  | errQClosed
  | txError
deriving DecidableEq, Repr

/-! ## Uint64ID.MarshalBinary (lasr.go lines 27-31)

```go
func (id Uint64ID) MarshalBinary() ([]byte, error) {
    buf := bytes.NewBuffer(make([]byte, 8))
    err := binary.Write(buf, binary.BigEndian, id)
    return buf.Bytes(), err
}
```

`make([]byte, 8)` is eight zero bytes, and `bytes.NewBuffer` takes them as
the buffer's initial contents.  `binary.Write` with `binary.BigEndian`
appends the eight big-endian bytes of the uint64 (byte i is
`byte(v >> (8*(7-i)))`); writing a fixed-size value to a `bytes.Buffer`
cannot fail, so the returned error is `nil`. -/

/-- The eight big-endian bytes `binary.Write` produces for a uint64 `v`:
byte `i` is `byte(v >> (8*(7-i)))`, i.e. `v / 2^(8*(7-i)) % 256`. -/
def putUint64be (v : Nat) : List Nat :=
  [v / 2 ^ 56 % 256, v / 2 ^ 48 % 256, v / 2 ^ 40 % 256, v / 2 ^ 32 % 256,
   v / 2 ^ 24 % 256, v / 2 ^ 16 % 256, v / 2 ^ 8 % 256, v % 256]

/-- `Uint64ID.MarshalBinary`: eight zero bytes from `make([]byte, 8)`
followed by the eight appended big-endian bytes; the error is `nil`. -/
def Uint64ID.MarshalBinary (id : Nat) : List Nat × Option LasrError :=
  (List.replicate 8 0 ++ putUint64be id, none)

/-- Lexicographic (shortlex on equal-length inputs) strict order on byte
strings, the order bolt uses for keys within a bucket. -/
def lexLt : List Nat → List Nat → Bool
  | [], [] => false
  | [], _ :: _ => true
  | _ :: _, [] => false
  | a :: as, b :: bs => decide (a < b) || (a == b && lexLt as bs)

/-- Big-endian bytes of `n`, `w` bytes wide, head = most significant.
Auxiliary recursive form of `putUint64be` used for the ordering proofs. -/
def beBytes : Nat → Nat → List Nat
  | 0, _ => []
  | w + 1, n => n / 256 ^ w % 256 :: beBytes w (n % 256 ^ w)

/-- Big-endian decoding of a byte string. -/
def fromBE (bs : List Nat) : Nat :=
  bs.foldl (fun acc b => acc * 256 + b) 0

/-! ## fifo (lasr.go lines 125-152)

```go
type fifo struct {
    data []*Message
    sync.Mutex
}

func newFifo(size int) *fifo {
    return &fifo{data: make([]*Message, 0, size)}
}

func (f *fifo) Pop() *Message {
    msg := f.data[0]
    f.data = append(f.data[0:0], f.data[1:]...)
    return msg
}

func (f *fifo) Push(m *Message) {
    if len(f.data) == cap(f.data) {
        panic("push to full buffer")
    }
    f.data = append(f.data, m)
}

func (f *fifo) Len() int {
    return len(f.data)
}
```

The Go slice's capacity never changes after `newFifo`: `Pop` rebuilds the
slice in place with `append(f.data[0:0], f.data[1:]...)`, which reuses the
backing array, and `Push` only appends when `len < cap`.  The model
therefore carries the capacity as a fixed field `cap`.  Buffer elements
are message handles; we model them by the messages' numeric IDs.  A `Pop`
on an empty buffer indexes `f.data[0]` out of range and panics; `Push` on
a full buffer panics explicitly: both are `none` results here. -/

structure Fifo where
  data : List Nat
  cap : Nat
deriving DecidableEq, Repr

/-- `newFifo(size)`: empty contents, capacity `size`. -/
def newFifo (size : Nat) : Fifo :=
  { data := [], cap := size }

/-- `fifo.Pop`: returns `f.data[0]` and drops it; on an empty buffer the
indexing panics (`none`). -/
def Fifo.Pop (f : Fifo) : Option (Nat × Fifo) :=
  match f.data with
  | [] => none
  | m :: rest => some (m, { f with data := rest })

/-- `fifo.Push`: panics (`none`) when `len(f.data) == cap(f.data)`,
otherwise appends at the tail. -/
def Fifo.Push (f : Fifo) (m : Nat) : Option Fifo :=
  if f.data.length = f.cap then none
  else some { f with data := f.data ++ [m] }

/-- `fifo.Len`. -/
def Fifo.Len (f : Fifo) : Nat :=
  f.data.length

/-- A client-visible fifo operation. -/
inductive FifoOp
  | push (m : Nat)
  | pop
deriving DecidableEq, Repr

/-- Run a sequence of fifo operations; `none` as soon as one panics. -/
def Fifo.run (f : Fifo) : List FifoOp → Option Fifo
  | [] => some f
  | FifoOp.push m :: ops =>
    match f.Push m with
    | none => none
    | some f' => f'.run ops
  | FifoOp.pop :: ops =>
    match f.Pop with
    | none => none
    | some (_, f') => f'.run ops

/-- Push a whole list of messages in order; `none` if any push panics. -/
def Fifo.pushAll (f : Fifo) : List Nat → Option Fifo
  | [] => some f
  | m :: ms =>
    match f.Push m with
    | none => none
    | some f' => f'.pushAll ms

/-- Pop `n` times, collecting the returned messages in order; stops early
if the buffer empties. -/
def Fifo.popN : Fifo → Nat → List Nat
  | _, 0 => []
  | f, n + 1 =>
    match f.Pop with
    | none => []
    | some (m, f') => m :: f'.popN n

/-! ## Queue storage and the ack/nack transactions

`Q.ack`, `Q.nack` and `Receive` live in a file of the repository that is
not in `src/` (only `Message.Ack`/`Message.Nack`, the options and the
sequencer are), so the storage side is modelled from the spec.  Keys are
IDs; since the byte order of marshalled `Uint64ID`s coincides with the
numeric order (proved below), buckets are association lists keyed by
`Nat`, the Ready bucket kept sorted ascending by key, mirroring bolt's
key-ordered iteration.  `touches` is instrumentation: it counts how many
times a store transaction was opened, so "without touching storage" is
expressible.  `txOk` parameters stand for whether the bolt transaction
commits; `txOk = false` models an arbitrary storage failure, after which
the transaction rolls back and the buckets are unchanged. -/

/-- A bucket: an association list from ID to stored body. -/
def bucketGet (b : List (Nat × List Nat)) (id : Nat) : Option (List Nat) :=
  match b.find? (fun kv => kv.1 == id) with
  | some kv => some kv.2
  | none => none

/-- Delete the entry keyed `id` from a bucket. -/
def bucketDel (b : List (Nat × List Nat)) (id : Nat) : List (Nat × List Nat) :=
  b.filter (fun kv => kv.1 != id)

/-- Insert `(id, body)` into a bucket kept sorted ascending by key,
replacing any existing entry at that key. -/
def bucketPut : List (Nat × List Nat) → Nat → List Nat → List (Nat × List Nat)
  | [], id, body => [(id, body)]
  | kv :: rest, id, body =>
    if id < kv.1 then (id, body) :: kv :: rest
    else if id = kv.1 then (id, body) :: rest
    else kv :: bucketPut rest id body

/-- Modelled from the spec: the persisted buckets of a queue (`Q.ready`,
`Q.unacked`, `Q.returned`) together with the dead-letters configuration
flag; the Q struct itself is not in `src/`. -/
structure QState where
  ready : List (Nat × List Nat)
  unacked : List (Nat × List Nat)
  returned : List (Nat × List Nat)
  deadLetters : Bool
  touches : Nat
deriving DecidableEq, Repr

/-- Modelled from the spec: `q.ack(id)` — a single short transaction that
deletes the entry keyed by the Message's ID from Unacked and returns the
transaction's error, if any (`Q.ack` is not in `src/`). -/
def Q.ack (st : QState) (id : Nat) (txOk : Bool) : QState × Option LasrError :=
  let st' := { st with touches := st.touches + 1 }
  if txOk then
    ({ st' with unacked := bucketDel st.unacked id }, none)
  else
    (st', some LasrError.txError)

/-- Modelled from the spec: `q.nack(id, retry)` — one transaction that
deletes the entry from Unacked and, when `retry`, reinserts it into Ready
at the same key; when not retried it goes to Returned if dead-letters are
enabled and is dropped otherwise (`Q.nack` is not in `src/`). -/
def Q.nack (st : QState) (id : Nat) (retry : Bool) (txOk : Bool) :
    QState × Option LasrError :=
  let st' := { st with touches := st.touches + 1 }
  if txOk then
    match bucketGet st.unacked id with
    | none => ({ st' with unacked := bucketDel st.unacked id }, none)
    | some body =>
      let st1 := { st' with unacked := bucketDel st.unacked id }
      if retry then
        ({ st1 with ready := bucketPut st1.ready id body }, none)
      else if st.deadLetters then
        ({ st1 with returned := bucketPut st1.returned id body }, none)
      else
        (st1, none)
  else
    (st', some LasrError.txError)

/-- Modelled from the spec: unbuffered non-blocking `Receive` — one
transaction moving the lowest-key Ready entry to Unacked and returning it;
the empty-queue signal when Ready is empty (`Q.Receive` is not in
`src/`). -/
def Q.receiveOne (st : QState) : QState × Option (Nat × List Nat) :=
  match st.ready with
  | [] => (st, none)
  | (k, v) :: rest =>
    ({ st with ready := rest, unacked := bucketPut st.unacked k v,
               touches := st.touches + 1 }, some (k, v))

/-! ## Message.Ack / Message.Nack (lasr.go lines 107-123)

```go
func (m *Message) Ack() (err error) {
    if !atomic.CompareAndSwapInt32(&m.once, 0, 1) {
        return ErrAckNack
    }
    return m.q.ack(m.ID)
}

func (m *Message) Nack(retry bool) (err error) {
    if !atomic.CompareAndSwapInt32(&m.once, 0, 1) {
        return ErrAckNack
    }
    return m.q.nack(m.ID, retry)
}
```

A `World` bundles one Message (its `once` int32 and its ID) with the
queue state its `q` pointer refers to.  The CAS is atomic, so any
concurrent interleaving of Ack/Nack calls acts like some sequential order
of the calls; sequences of calls are modelled by `runCalls`. -/

/-- `atomic.CompareAndSwapInt32(&once, 0, 1)`: returns whether the swap
happened, and the new value of the cell. -/
def cas (once : Nat) : Bool × Nat :=
  if once = 0 then (true, 1) else (false, once)

/-- One Message (fields `once` and `ID`) together with the queue state
reached through its `q` back-pointer. -/
structure World where
  msgOnce : Nat
  msgId : Nat
  store : QState
deriving DecidableEq, Repr

/-- `Message.Ack`: CAS on the once-flag, then `q.ack(m.ID)`; `ErrAckNack`
without touching storage when the flag was already set. -/
def Message.Ack (w : World) (txOk : Bool) : World × Option LasrError :=
  let r := cas w.msgOnce
  if r.1 then
    let a := Q.ack w.store w.msgId txOk
    ({ w with msgOnce := r.2, store := a.1 }, a.2)
  else
    (w, some LasrError.errAckNack)

/-- `Message.Nack`: CAS on the once-flag, then `q.nack(m.ID, retry)`;
`ErrAckNack` without touching storage when the flag was already set. -/
def Message.Nack (w : World) (retry : Bool) (txOk : Bool) :
    World × Option LasrError :=
  let r := cas w.msgOnce
  if r.1 then
    let a := Q.nack w.store w.msgId retry txOk
    ({ w with msgOnce := r.2, store := a.1 }, a.2)
  else
    (w, some LasrError.errAckNack)

/-- One resolution call on a Message: `Ack()` or `Nack(retry)`, together
with whether its store transaction would commit. -/
inductive Call
  | ack (txOk : Bool)
  | nack (retry : Bool) (txOk : Bool)
deriving DecidableEq, Repr

/-- Perform one call. -/
def doCall (w : World) : Call → World × Option LasrError
  | Call.ack txOk => Message.Ack w txOk
  | Call.nack retry txOk => Message.Nack w retry txOk

/-- Perform a sequence of calls, collecting each call's returned error. -/
def runCalls (w : World) : List Call → World × List (Option LasrError)
  | [] => (w, [])
  | c :: cs =>
    let r := doCall w c
    let rest := runCalls r.1 cs
    (rest.1, r.2 :: rest.2)

/-! ## Sequencer (sequencer file, `Q.nextUint64ID`)

```go
func (q *Q) nextUint64ID(tx *bolt.Tx) (Uint64ID, error) {
    bucket := tx.Bucket(q.name)
    seq, err := bucket.NextSequence()
    if err != nil {
        return Uint64ID(0), err
    }
    return Uint64ID(seq), nil
}
```

bolt's `Bucket.NextSequence` (the store is an external collaborator, not
in `src/`) increments the bucket's persisted counter and returns the new
value; `Send` is also not in `src/`.  Modelled from the spec: the default
Sequencer derives each ID from this persistent counter, incremented in
the same transaction as the Send that consumes it. -/

/-- Modelled from the spec: bolt `Bucket.NextSequence` — increments the
persisted counter and returns the new value. -/
def nextSequenceCounter (seq : Nat) : Nat × Nat :=
  (seq + 1, seq + 1)

/-- `Q.nextUint64ID` on the successful path: the ID is the new counter
value. -/
def Q.nextUint64ID (seq : Nat) : Nat × Nat :=
  nextSequenceCounter seq

/-- Modelled from the spec: the IDs returned by `n` successive successful
`Send` calls starting from counter state `seq` (`Q.Send` is not in
`src/`; each Send obtains the next ID from the sequencer in its own
committed transaction). -/
def sendIDs (seq : Nat) : Nat → List Nat
  | 0 => []
  | n + 1 =>
    let r := Q.nextUint64ID seq
    r.2 :: sendIDs r.1 n

/-! ## Options (lasr.go lines 97-105)

```go
func WithMessageBufferSize(size int) Option {
    return func(q *Q) error {
        if size < 0 {
            return fmt.Errorf("lasr: invalid message buffer size: %d", size)
        }
        q.messagesBufSize = size
        return nil
    }
}
```
-/

/-- The configuration slice of the Q struct an `Option` mutates.
`messagesBufSize` is a Go `int`, hence `Int` here.  The zero value of the
field — the default when no option is given — is 0. -/
structure QConfig where
  messagesBufSize : Int
deriving DecidableEq, Repr

/-- Modelled from the spec: the configuration of a freshly opened queue
before options run (`NewQ` is not in `src/`); the buffer size defaults
to 0, unbuffered. -/
def defaultQConfig : QConfig :=
  { messagesBufSize := 0 }

/-- `WithMessageBufferSize(size)` applied to a queue under construction:
rejects negative sizes with a configuration error, leaving the
configuration unchanged; otherwise sets the field. -/
def WithMessageBufferSize (size : Int) (q : QConfig) : QConfig × Option String :=
  if size < 0 then
    (q, some "lasr: invalid message buffer size")
  else
    ({ q with messagesBufSize := size }, none)

/-! ## Helper lemmas: big-endian bytes and lexicographic order -/

lemma split_lt (p a b : Nat) (h : a < b) :
    a / p < b / p ∨ (a / p = b / p ∧ a % p < b % p) := by
  rcases Nat.lt_or_ge (a / p) (b / p) with h1 | h1
  · exact Or.inl h1
  · have h2 : a / p = b / p := le_antisymm (Nat.div_le_div_right h.le) h1
    have ha := Nat.div_add_mod a p
    have hb := Nat.div_add_mod b p
    refine Or.inr ⟨h2, ?_⟩
    have hlt : p * (a / p) + a % p < p * (b / p) + b % p := by rw [ha, hb]; exact h
    rw [h2] at hlt
    exact Nat.lt_of_add_lt_add_left hlt

lemma lexLt_beBytes : ∀ (w a b : Nat), a < b → b < 256 ^ w →
    lexLt (beBytes w a) (beBytes w b) = true := by
  intro w
  induction w with
  | zero =>
    intro a b hab hb
    simp only [pow_zero] at hb
    omega
  | succ w ih =>
    intro a b hab hb
    rw [pow_succ] at hb
    have hbw : b / 256 ^ w < 256 := Nat.div_lt_of_lt_mul hb
    have haw : a / 256 ^ w < 256 := lt_of_le_of_lt (Nat.div_le_div_right hab.le) hbw
    rcases split_lt (256 ^ w) a b hab with h1 | ⟨heq, hmod⟩
    · simp [beBytes, lexLt, Nat.mod_eq_of_lt haw, Nat.mod_eq_of_lt hbw, h1]
    · have ht := ih (a % 256 ^ w) (b % 256 ^ w) hmod (Nat.mod_lt _ (pow_pos (by norm_num) w))
      simp [beBytes, lexLt, Nat.mod_eq_of_lt haw, Nat.mod_eq_of_lt hbw, heq, ht]

lemma byte_collapse (m k : Nat) :
    m % 256 ^ (k + 1) / 256 ^ k % 256 = m / 256 ^ k % 256 := by
  rw [pow_succ, Nat.mod_mul_right_div_self]
  exact Nat.mod_mod_of_dvd _ (dvd_refl 256)

lemma putUint64be_eq_beBytes (n : Nat) : putUint64be n = beBytes 8 n := by
  have collapse : ∀ j k, k ≤ j → n % 256 ^ j % 256 ^ k = n % 256 ^ k := fun j k h =>
    Nat.mod_mod_of_dvd n (pow_dvd_pow 256 h)
  have h1 := byte_collapse n 1
  have h2 := byte_collapse n 2
  have h3 := byte_collapse n 3
  have h4 := byte_collapse n 4
  have h5 := byte_collapse n 5
  have h6 := byte_collapse n 6
  simp only [beBytes, putUint64be]
  norm_num [collapse] at h1 h2 h3 h4 h5 h6 ⊢
  exact ⟨h6.symm, h5.symm, h4.symm, h3.symm, h2.symm, h1.symm⟩

lemma foldl_beBytes : ∀ (w acc n : Nat), n < 256 ^ w →
    (beBytes w n).foldl (fun a b => a * 256 + b) acc = acc * 256 ^ w + n := by
  intro w
  induction w with
  | zero =>
    intro acc n h
    simp only [pow_zero] at h ⊢
    interval_cases n
    simp [beBytes]
  | succ w ih =>
    intro acc n h
    rw [pow_succ] at h
    have hd : n / 256 ^ w < 256 := Nat.div_lt_of_lt_mul h
    simp only [beBytes, List.foldl_cons]
    rw [Nat.mod_eq_of_lt hd]
    rw [ih _ _ (Nat.mod_lt _ (pow_pos (by norm_num) w))]
    have e := Nat.div_add_mod n (256 ^ w)
    have expand : (acc * 256 + n / 256 ^ w) * 256 ^ w + n % 256 ^ w
        = acc * (256 ^ w * 256) + (256 ^ w * (n / 256 ^ w) + n % 256 ^ w) := by ring
    rw [expand, e, pow_succ]

lemma lexLt_append_same : ∀ (l xs ys : List Nat), lexLt (l ++ xs) (l ++ ys) = lexLt xs ys := by
  intro l
  induction l with
  | nil => intro xs ys; rfl
  | cons a l ih => intro xs ys; simp [lexLt, ih]

/-- The marshalled byte strings of two in-range uint64 IDs compare
lexicographically exactly as the numbers do. -/
lemma marshal_lexLt (a b : Nat) (hab : a < b) (hb : b < 2 ^ 64) :
    lexLt (Uint64ID.MarshalBinary a).1 (Uint64ID.MarshalBinary b).1 = true := by
  show lexLt (List.replicate 8 0 ++ putUint64be a)
      (List.replicate 8 0 ++ putUint64be b) = true
  rw [lexLt_append_same, putUint64be_eq_beBytes, putUint64be_eq_beBytes]
  exact lexLt_beBytes 8 a b hab (by norm_num at hb ⊢; exact hb)

/-! ## Helper lemmas: fifo -/

lemma run_inv : ∀ (ops : List FifoOp) (f g : Fifo),
    f.data.length ≤ f.cap → f.run ops = some g →
    g.cap = f.cap ∧ g.data.length ≤ g.cap := by
  intro ops
  induction ops with
  | nil =>
    intro f g hle h
    simp only [Fifo.run, Option.some.injEq] at h
    subst h
    exact ⟨rfl, hle⟩
  | cons op ops ih =>
    intro f g hle h
    cases op with
    | push m =>
      simp only [Fifo.run, Fifo.Push] at h
      by_cases hfull : f.data.length = f.cap
      · simp [hfull] at h
      · simp only [hfull, if_false] at h
        have := ih _ g (by simp; omega) h
        simpa using this
    | pop =>
      simp only [Fifo.run, Fifo.Pop] at h
      cases hd : f.data with
      | nil => rw [hd] at h; simp at h
      | cons m rest =>
        rw [hd] at h
        simp only at h
        have := ih _ g (by
          have : rest.length + 1 = f.data.length := by rw [hd]; simp
          simp; omega) h
        simpa using this

lemma pushAll_append : ∀ (ms : List Nat) (f : Fifo),
    f.data.length + ms.length ≤ f.cap →
    f.pushAll ms = some { data := f.data ++ ms, cap := f.cap } := by
  intro ms
  induction ms with
  | nil =>
    intro f hle
    simp [Fifo.pushAll]
  | cons m ms ih =>
    intro f hle
    simp only [List.length_cons] at hle
    have hne : f.data.length ≠ f.cap := by omega
    simp only [Fifo.pushAll, Fifo.Push, hne, if_false]
    rw [ih { f with data := f.data ++ [m] } (by simp; omega)]
    simp

lemma popN_self : ∀ (d : List Nat) (c : Nat),
    Fifo.popN { data := d, cap := c } d.length = d := by
  intro d
  induction d with
  | nil => intro c; simp [Fifo.popN]
  | cons m rest ih => intro c; simp [Fifo.popN, Fifo.Pop, ih]

/-! ## Helper lemmas: buckets and the once-guard -/

lemma bucketGet_del_self (b : List (Nat × List Nat)) (id : Nat) :
    bucketGet (bucketDel b id) id = none := by
  have hfind : (bucketDel b id).find? (fun kv => kv.1 == id) = none := by
    rw [List.find?_eq_none]
    intro x hx
    have hx' := (List.mem_filter.mp hx).2
    simp only [bne_iff_ne, ne_eq] at hx'
    simp only [beq_iff_eq]
    exact hx'
  simp [bucketGet, hfind]

lemma bucketGet_cons_self (b : List (Nat × List Nat)) (id : Nat) (v : List Nat) :
    bucketGet ((id, v) :: b) id = some v := by
  simp [bucketGet, List.find?]

lemma bucketPut_front (b : List (Nat × List Nat)) (id : Nat) (v : List Nat)
    (h : ∀ kv ∈ b, id < kv.1) : bucketPut b id v = (id, v) :: b := by
  cases b with
  | nil => rfl
  | cons kv rest =>
    have := h kv (List.mem_cons_self kv rest)
    simp [bucketPut, this]

lemma Q.ack_touches (st : QState) (id : Nat) (txOk : Bool) :
    (Q.ack st id txOk).1.touches = st.touches + 1 := by
  cases txOk <;> simp [Q.ack]

lemma Q.nack_touches (st : QState) (id : Nat) (retry txOk : Bool) :
    (Q.nack st id retry txOk).1.touches = st.touches + 1 := by
  dsimp only [Q.nack]
  split
  · split
    · rfl
    · split
      · rfl
      · split <;> rfl
  · rfl

lemma doCall_resolved (w : World) (c : Call) (h : w.msgOnce ≠ 0) :
    doCall w c = (w, some LasrError.errAckNack) := by
  cases c <;> simp [doCall, Message.Ack, Message.Nack, cas, h]

lemma doCall_msgOnce (st : QState) (id : Nat) (c : Call) :
    (doCall ⟨0, id, st⟩ c).1.msgOnce = 1 := by
  cases c <;> simp [doCall, Message.Ack, Message.Nack, cas]

lemma doCall_touches (st : QState) (id : Nat) (c : Call) :
    (doCall ⟨0, id, st⟩ c).1.store.touches = st.touches + 1 := by
  cases c with
  | ack txOk => simp [doCall, Message.Ack, cas, Q.ack_touches]
  | nack retry txOk => simp [doCall, Message.Nack, cas, Q.nack_touches]

lemma runCalls_resolved (w : World) (h : w.msgOnce ≠ 0) :
    ∀ cs : List Call,
      runCalls w cs = (w, cs.map fun _ => some LasrError.errAckNack) := by
  intro cs
  induction cs with
  | nil => rfl
  | cons c cs ih => simp [runCalls, doCall_resolved w c h, ih]

/-! ## Helper lemmas: the sequencer -/

lemma sendIDs_mem : ∀ (n seq x : Nat), x ∈ sendIDs seq n → seq < x := by
  intro n
  induction n with
  | zero => intro seq x h; simp [sendIDs] at h
  | succ n ih =>
    intro seq x h
    simp only [sendIDs, Q.nextUint64ID, nextSequenceCounter, List.mem_cons] at h
    rcases h with h | h
    · omega
    · have := ih (seq + 1) x h
      omega

lemma sendIDs_pairwise : ∀ (n seq : Nat), (sendIDs seq n).Pairwise (· < ·) := by
  intro n
  induction n with
  | zero => intro seq; simp [sendIDs]
  | succ n ih =>
    intro seq
    simp only [sendIDs, Q.nextUint64ID, nextSequenceCounter, List.pairwise_cons]
    exact ⟨fun x hx => sendIDs_mem n (seq + 1) x hx, ih (seq + 1)⟩

lemma sendIDs_le : ∀ (n seq x : Nat), x ∈ sendIDs seq n → x ≤ seq + n := by
  intro n
  induction n with
  | zero => intro seq x h; simp [sendIDs] at h
  | succ n ih =>
    intro seq x h
    simp only [sendIDs, Q.nextUint64ID, nextSequenceCounter, List.mem_cons] at h
    rcases h with h | h
    · omega
    · have := ih (seq + 1) x h
      omega

/-! ## The claims -/

/-- C6: for every fifo created by `newFifo(size)`, `Len` never exceeds
`size`; `Push` when `Len` equals `size` is a panic, and under `Len < size`
it succeeds and increases `Len` by exactly one. -/
theorem staging_buffer_bounded (size : Nat) (ops : List FifoOp) (f : Fifo) (m : Nat)
    (h : (newFifo size).run ops = some f) :
    f.Len ≤ size ∧
    (f.Len = size → f.Push m = none) ∧
    (f.Len < size → ∃ f', f.Push m = some f' ∧ f'.Len = f.Len + 1) := by
  obtain ⟨hcap, hlen⟩ := run_inv ops (newFifo size) f (by simp [newFifo]) h
  have hcap' : f.cap = size := by simpa [newFifo] using hcap
  refine ⟨by rw [← hcap']; exact hlen, ?_, ?_⟩
  · intro hfull
    have : f.data.length = f.cap := by
      rw [hcap']
      exact hfull
    simp [Fifo.Push, this]
  · intro hlt
    have hne : f.data.length ≠ f.cap := by
      rw [hcap']
      exact Nat.ne_of_lt hlt
    exact ⟨{ f with data := f.data ++ [m] }, by simp [Fifo.Push, hne], by simp [Fifo.Len]⟩

/-- Witness for C6 at a concrete run: one push into a fifo of capacity 2. -/
theorem staging_buffer_bounded_witness :
    Fifo.Len ⟨[5], 2⟩ ≤ 2 ∧
    (Fifo.Len ⟨[5], 2⟩ = 2 → Fifo.Push ⟨[5], 2⟩ 7 = none) ∧
    (Fifo.Len ⟨[5], 2⟩ < 2 →
      ∃ f', Fifo.Push ⟨[5], 2⟩ 7 = some f' ∧ f'.Len = Fifo.Len ⟨[5], 2⟩ + 1) :=
  staging_buffer_bounded 2 [FifoOp.push 5] ⟨[5], 2⟩ 7 (by decide)

/-- C7: the staging buffer is first-in-first-out — pushing a batch and then
popping returns the messages in exactly the push order, and every `Pop` on
a non-empty buffer removes and returns the head, the oldest element still
present. -/
theorem staging_buffer_fifo_order (size : Nat) (ms : List Nat) (h : ms.length ≤ size) :
    (∃ f : Fifo, (newFifo size).pushAll ms = some f ∧ f.popN ms.length = ms) ∧
    (∀ (g : Fifo) (x : Nat) (rest : List Nat), g.data = x :: rest →
      g.Pop = some (x, { g with data := rest })) := by
  constructor
  · refine ⟨{ data := ms, cap := size }, ?_, popN_self ms size⟩
    have := pushAll_append ms (newFifo size) (by simpa [newFifo] using h)
    simpa [newFifo] using this
  · intro g x rest hd
    simp [Fifo.Pop, hd]

/-- Witness for C7: pushing [1, 2] into a fifo of capacity 3. -/
theorem staging_buffer_fifo_order_witness :
    (∃ f : Fifo, (newFifo 3).pushAll [1, 2] = some f ∧
      f.popN ([1, 2] : List Nat).length = [1, 2]) ∧
    (∀ (g : Fifo) (x : Nat) (rest : List Nat), g.data = x :: rest →
      g.Pop = some (x, { g with data := rest })) :=
  staging_buffer_fifo_order 3 [1, 2] (by norm_num)

/-- C8: `Pop` on an empty staging buffer panics (indexing the empty slice
out of range) rather than returning a value or error; under `Len > 0` the
indexing is in bounds and `Pop` returns the head. -/
theorem pop_on_empty_panics (f : Fifo) :
    (f.Len = 0 → f.Pop = none) ∧
    (0 < f.Len → ∃ m f', f.Pop = some (m, f') ∧ f.data.head? = some m ∧
      f'.data = f.data.tail ∧ f'.cap = f.cap ∧ f'.Len + 1 = f.Len) := by
  cases hd : f.data with
  | nil =>
    constructor
    · intro
      simp [Fifo.Pop, hd]
    · intro hpos
      simp [Fifo.Len, hd] at hpos
  | cons m rest =>
    constructor
    · intro h0
      simp [Fifo.Len, hd] at h0
    · intro _
      exact ⟨m, { f with data := rest }, by simp [Fifo.Pop, hd], by simp [hd],
        by simp [hd], rfl, by simp [Fifo.Len, hd]⟩

/-- Witness for C8: the empty fifo and a two-element fifo of capacity 3. -/
theorem pop_on_empty_panics_witness :
    (Fifo.Pop ⟨[], 3⟩ = none) ∧
    (∃ m f', Fifo.Pop ⟨[4, 5], 3⟩ = some (m, f') ∧
      (⟨[4, 5], 3⟩ : Fifo).data.head? = some m ∧
      f'.data = (⟨[4, 5], 3⟩ : Fifo).data.tail ∧ f'.cap = (⟨[4, 5], 3⟩ : Fifo).cap ∧
      f'.Len + 1 = Fifo.Len ⟨[4, 5], 3⟩) :=
  ⟨(pop_on_empty_panics ⟨[], 3⟩).1 rfl,
   (pop_on_empty_panics ⟨[4, 5], 3⟩).2 (by norm_num [Fifo.Len])⟩

/-- C9: the message-buffer-size option accepts every non-negative size,
setting the field (default 0, unbuffered), and rejects every negative size
with a configuration error, leaving the configuration unchanged. -/
theorem with_message_buffer_size_validates (q : QConfig) (size : Int) :
    defaultQConfig.messagesBufSize = 0 ∧
    (0 ≤ size →
      WithMessageBufferSize size q = ({ q with messagesBufSize := size }, none)) ∧
    (size < 0 →
      WithMessageBufferSize size q = (q, some "lasr: invalid message buffer size")) := by
  refine ⟨rfl, ?_, ?_⟩
  · intro h
    simp [WithMessageBufferSize, not_lt.mpr h]
  · intro h
    simp [WithMessageBufferSize, h]

/-- Witness for C9 at sizes 5 and -3 on the default configuration. -/
theorem with_message_buffer_size_validates_witness :
    (WithMessageBufferSize 5 defaultQConfig
      = ({ defaultQConfig with messagesBufSize := 5 }, none)) ∧
    (WithMessageBufferSize (-3) defaultQConfig
      = (defaultQConfig, some "lasr: invalid message buffer size")) :=
  ⟨(with_message_buffer_size_validates defaultQConfig 5).2.1 (by norm_num),
   (with_message_buffer_size_validates defaultQConfig (-3)).2.2 (by norm_num)⟩

/-- C10: for every Uint64ID value, `MarshalBinary` returns a nil error and
a 16-byte slice whose first 8 bytes are zero and whose last 8 bytes are the
big-endian encoding of the value (they decode back to it). -/
theorem marshal_binary_sixteen_bytes (id : Nat) (h : id < 2 ^ 64) :
    (Uint64ID.MarshalBinary id).2 = none ∧
    (Uint64ID.MarshalBinary id).1.length = 16 ∧
    (Uint64ID.MarshalBinary id).1.take 8 = List.replicate 8 0 ∧
    (Uint64ID.MarshalBinary id).1.drop 8 = putUint64be id ∧
    fromBE ((Uint64ID.MarshalBinary id).1.drop 8) = id := by
  refine ⟨rfl, ?_, ?_, ?_, ?_⟩
  · simp [Uint64ID.MarshalBinary, putUint64be]
  · simp [Uint64ID.MarshalBinary, putUint64be]
  · simp [Uint64ID.MarshalBinary, putUint64be]
  · show fromBE ((List.replicate 8 0 ++ putUint64be id).drop 8) = id
    have hdrop : (List.replicate 8 0 ++ putUint64be id).drop 8 = putUint64be id := by
      simp [putUint64be]
    rw [hdrop, putUint64be_eq_beBytes, fromBE]
    have h' : id < 256 ^ 8 := by norm_num at h ⊢; exact h
    simpa using foldl_beBytes 8 0 id h'

/-- Witness for C10 at id = 258. -/
theorem marshal_binary_sixteen_bytes_witness :
    (Uint64ID.MarshalBinary 258).2 = none ∧
    (Uint64ID.MarshalBinary 258).1.length = 16 ∧
    (Uint64ID.MarshalBinary 258).1.take 8 = List.replicate 8 0 ∧
    (Uint64ID.MarshalBinary 258).1.drop 8 = putUint64be 258 ∧
    fromBE ((Uint64ID.MarshalBinary 258).1.drop 8) = 258 :=
  marshal_binary_sixteen_bytes 258 (by norm_num)

/-- C1: on a fresh Message the first `Ack` deletes the entry keyed by the
Message's ID from Unacked in one transaction (one storage touch) and
returns the transaction's error, if any; a subsequent `Ack`, regardless of
the first call's outcome, returns `ErrAckNack` and changes nothing — in
particular it does not touch storage. -/
theorem ack_first_then_already_resolved (st : QState) (id : Nat) (txOk txOk2 : Bool) :
    (Message.Ack ⟨0, id, st⟩ txOk).2 =
      (if txOk then none else some LasrError.txError) ∧
    (Message.Ack ⟨0, id, st⟩ txOk).1.store.unacked =
      (if txOk then bucketDel st.unacked id else st.unacked) ∧
    (Message.Ack ⟨0, id, st⟩ txOk).1.store.touches = st.touches + 1 ∧
    Message.Ack (Message.Ack ⟨0, id, st⟩ txOk).1 txOk2 =
      ((Message.Ack ⟨0, id, st⟩ txOk).1, some LasrError.errAckNack) := by
  cases txOk <;> simp [Message.Ack, Q.ack, cas]

/-- C2: for any first call and any later sequence of Ack/Nack calls on the
same fresh Message, only the first call reaches storage (exactly one
transaction is opened); the state after the whole sequence is the state
after the first call, and every later call returns `ErrAckNack` — in
particular Ack after Nack and Nack after Ack. -/
theorem ack_nack_mutually_exclusive (st : QState) (id : Nat) (c : Call) (cs : List Call) :
    (runCalls ⟨0, id, st⟩ (c :: cs)).1 = (doCall ⟨0, id, st⟩ c).1 ∧
    (runCalls ⟨0, id, st⟩ (c :: cs)).2 =
      (doCall ⟨0, id, st⟩ c).2 :: cs.map (fun _ => some LasrError.errAckNack) ∧
    (doCall ⟨0, id, st⟩ c).1.store.touches = st.touches + 1 := by
  have h1 : (doCall ⟨0, id, st⟩ c).1.msgOnce ≠ 0 := by
    rw [doCall_msgOnce]
    omega
  have h2 := runCalls_resolved (doCall ⟨0, id, st⟩ c).1 h1 cs
  refine ⟨?_, ?_, doCall_touches st id c⟩ <;> simp [runCalls, h2]

/-- C3: the resolved once-flag is set (to 1) even when the first call's
transaction fails: the first Ack or Nack whose transaction fails returns
the transaction error with the record still in Unacked, and afterwards
every Ack or Nack call returns `ErrAckNack` and changes nothing, so the
Message can never be successfully resolved again. -/
theorem resolved_flag_set_before_transaction (st : QState) (id : Nat) (retry : Bool)
    (c2 : Call) :
    (Message.Ack ⟨0, id, st⟩ false).2 = some LasrError.txError ∧
    (Message.Ack ⟨0, id, st⟩ false).1.msgOnce = 1 ∧
    (Message.Ack ⟨0, id, st⟩ false).1.store.unacked = st.unacked ∧
    doCall (Message.Ack ⟨0, id, st⟩ false).1 c2 =
      ((Message.Ack ⟨0, id, st⟩ false).1, some LasrError.errAckNack) ∧
    (Message.Nack ⟨0, id, st⟩ retry false).2 = some LasrError.txError ∧
    (Message.Nack ⟨0, id, st⟩ retry false).1.msgOnce = 1 ∧
    (Message.Nack ⟨0, id, st⟩ retry false).1.store.unacked = st.unacked ∧
    doCall (Message.Nack ⟨0, id, st⟩ retry false).1 c2 =
      ((Message.Nack ⟨0, id, st⟩ retry false).1, some LasrError.errAckNack) := by
  have ha : (Message.Ack ⟨0, id, st⟩ false).1.msgOnce = 1 := by
    simp [Message.Ack, cas, Q.ack]
  have hn : (Message.Nack ⟨0, id, st⟩ retry false).1.msgOnce = 1 := by
    simp [Message.Nack, cas, Q.nack]
  refine ⟨by simp [Message.Ack, cas, Q.ack], ha, by simp [Message.Ack, cas, Q.ack],
    doCall_resolved _ c2 (by rw [ha]; omega),
    by simp [Message.Nack, cas, Q.nack], hn, by simp [Message.Nack, cas, Q.nack],
    doCall_resolved _ c2 (by rw [hn]; omega)⟩

/-- C4: a first `Nack(retry = true)` whose transaction commits deletes the
entry from Unacked and reinserts it into Ready at the same key; when every
pending Ready entry has a strictly newer ID, the next Receive returns
exactly this message, ahead of all strictly-newer-ID messages. -/
theorem nack_retry_requeues (st : QState) (id : Nat) (v : List Nat)
    (hget : bucketGet st.unacked id = some v)
    (hready : ∀ kv ∈ st.ready, id < kv.1) :
    (Message.Nack ⟨0, id, st⟩ true true).2 = none ∧
    bucketGet (Message.Nack ⟨0, id, st⟩ true true).1.store.unacked id = none ∧
    bucketGet (Message.Nack ⟨0, id, st⟩ true true).1.store.ready id = some v ∧
    (Q.receiveOne (Message.Nack ⟨0, id, st⟩ true true).1.store).2 = some (id, v) := by
  have hput := bucketPut_front st.ready id v hready
  simp [Message.Nack, cas, Q.nack, hget, hput, bucketGet_del_self,
    bucketGet_cons_self, Q.receiveOne]

/-- Witness for C4: ID 1 nacked back ahead of the pending ID 2. -/
theorem nack_retry_requeues_witness :
    (Message.Nack ⟨0, 1, ⟨[(2, [20])], [(1, [10])], [], false, 0⟩⟩ true true).2 = none ∧
    bucketGet (Message.Nack ⟨0, 1, ⟨[(2, [20])], [(1, [10])], [], false, 0⟩⟩
      true true).1.store.unacked 1 = none ∧
    bucketGet (Message.Nack ⟨0, 1, ⟨[(2, [20])], [(1, [10])], [], false, 0⟩⟩
      true true).1.store.ready 1 = some [10] ∧
    (Q.receiveOne (Message.Nack ⟨0, 1, ⟨[(2, [20])], [(1, [10])], [], false, 0⟩⟩
      true true).1.store).2 = some (1, [10]) :=
  nack_retry_requeues ⟨[(2, [20])], [(1, [10])], [], false, 0⟩ 1 [10] (by decide) (by decide)

/-- C5: successive successful Sends return pairwise-distinct, strictly
increasing IDs, their marshalled byte strings are strictly increasing in
lexicographic order, and in particular for any two in-range Uint64ID
values `a < b` the marshalled bytes of `a` compare lexicographically below
those of `b`. -/
theorem send_ids_strictly_increasing (seq n : Nat) (h : seq + n < 2 ^ 64) :
    (sendIDs seq n).Pairwise (· < ·) ∧
    (sendIDs seq n).Nodup ∧
    (sendIDs seq n).Pairwise (fun a b =>
      lexLt (Uint64ID.MarshalBinary a).1 (Uint64ID.MarshalBinary b).1 = true) ∧
    (∀ a b : Nat, a < b → b < 2 ^ 64 →
      lexLt (Uint64ID.MarshalBinary a).1 (Uint64ID.MarshalBinary b).1 = true) := by
  refine ⟨sendIDs_pairwise n seq, ?_, ?_, fun a b hab hb => marshal_lexLt a b hab hb⟩
  · exact (sendIDs_pairwise n seq).imp fun hab => Nat.ne_of_lt hab
  · refine List.Pairwise.imp_of_mem ?_ (sendIDs_pairwise n seq)
    intro a b ha hb hab
    exact marshal_lexLt a b hab (lt_of_le_of_lt (sendIDs_le n seq b hb) h)

/-- Witness for C5: three Sends from a fresh counter. -/
theorem send_ids_strictly_increasing_witness :
    (sendIDs 0 3).Pairwise (· < ·) ∧
    (sendIDs 0 3).Nodup ∧
    (sendIDs 0 3).Pairwise (fun a b =>
      lexLt (Uint64ID.MarshalBinary a).1 (Uint64ID.MarshalBinary b).1 = true) ∧
    (∀ a b : Nat, a < b → b < 2 ^ 64 →
      lexLt (Uint64ID.MarshalBinary a).1 (Uint64ID.MarshalBinary b).1 = true) :=
  send_ids_strictly_increasing 0 3 (by norm_num)

end Lasr
